import Mathlib

/-
Verification of the ArtistGrid/Trackers sync-download-archive pipeline
(src/main.py) against its specification. The Python code is shallowly
embedded: strings are lists of characters, dictionaries are association
lists with first-match lookup and in-place update, the two sheet-id
regular expressions are modelled by an explicit leftmost-match scan, and
the stateful operations (archive throttling, export download, one sync
cycle) are functions from their inputs and external outcomes to records
of their observable effects. Python `str.lower`, `str.strip` and
`strptime` are modelled on ASCII text, which covers every string the
program itself produces.
-/


/-- Strings from the Python source are modelled as lists of characters. -/
abbrev Str := List Char

/-- Convert a Lean string literal to the character-list representation. -/
def str (s : String) : Str := s.toList

/-- Character class `[a-zA-Z0-9-_]` of the sheet-id regular expressions. -/
def isIdChar (c : Char) : Bool :=
  ('a' ≤ c && c ≤ 'z') || ('A' ≤ c && c ≤ 'Z') || ('0' ≤ c && c ≤ '9') || c == '-' || c == '_'

/-- The literal prefix of the document-sharing URL pattern. -/
def gdocPre : Str := str "https://docs.google.com/spreadsheets/d/"

/-- Strip a literal character sequence from the front of a string. -/
def stripLit : List Char → List Char → Option (List Char)
  | [], s => some s
  | _ :: _, [] => none
  | a :: ps, c :: cs => if c = a then stripLit ps cs else none

/-- Consume exactly `n` characters satisfying `p`; return them and the rest. -/
def takeExact (p : Char → Bool) : Nat → List Char → Option (List Char × List Char)
  | 0, s => some ([], s)
  | _ + 1, [] => none
  | n + 1, c :: t =>
    if p c then
      match takeExact p n t with
      | some (g, r) => some (c :: g, r)
      | none => none
    else none

/-- Attempt of the `clean_url` regex at the current position. -/
def cleanAt (s : Str) : Option Str :=
  match stripLit gdocPre s with
  | none => none
  | some rest =>
    match takeExact isIdChar 44 rest with
    | none => none
    | some (g, _) => some g

/-- Leftmost-match scan of the `clean_url` regex (Python `re.search`). -/
def cleanAux : List Char → Option Str
  | [] => none
  | c :: t =>
    match cleanAt (c :: t) with
    | some g => some g
    | none => cleanAux t

/-- Embedding of `clean_url` (src/main.py line 45). -/
def clean_url (u : Str) : Option Str :=
  match cleanAux u with
  | some g => some (gdocPre ++ g ++ ['/'])
  | none => none

/-- Attempt of the `extract_sheet_id` regex at the current position. -/
def extractAt (s : Str) : Option Str :=
  match stripLit (str "/d/") s with
  | none => none
  | some rest =>
    match takeExact isIdChar 44 rest with
    | none => none
    | some (g, r) =>
      match r with
      | '/' :: _ => some g
      | _ => none

/-- Leftmost-match scan of the `extract_sheet_id` regex. -/
def extractAux : List Char → Option Str
  | [] => none
  | c :: t =>
    match extractAt (c :: t) with
    | some g => some g
    | none => extractAux t

/-- Embedding of `extract_sheet_id` (src/main.py line 49). -/
def extract_sheet_id (u : Str) : Option Str := extractAux u

def id44 : Str := str "AAAAAAAAAAAAAAAAAAAAAAAAAAAAAAAAAAAAAAAAAAAA"

/-- ASCII lowercase conversion, modelling Python `str.lower` on ASCII text. -/
def asciiLower (c : Char) : Char :=
  if 'A' ≤ c && c ≤ 'Z' then Char.ofNat (c.toNat + 32) else c

/-- Python whitespace characters stripped by `str.strip` (ASCII subset). -/
def isPySpace (c : Char) : Bool :=
  c == ' ' || c == '\t' || c == '\n' || c == '\r' || c == '\x0b' || c == '\x0c'

/-- Python `str.strip()`: drop leading and trailing whitespace. -/
def pyStrip (s : Str) : Str :=
  ((s.dropWhile isPySpace).reverse.dropWhile isPySpace).reverse

/-- Python `str.lower()` restricted to ASCII case mapping. -/
def pyLower (s : Str) : Str := s.map asciiLower

/-- Embedding of `normalize_artist_name` (src/main.py line 24): lowercase,
replace dollar signs by the letter s, then keep only `[a-z0-9]`. -/
def normalize_artist_name (nm : Str) : Str :=
  (((pyLower nm).map (fun c => if c = '$' then 's' else c)).filter
    (fun c => ('a' ≤ c && c ≤ 'z') || ('0' ≤ c && c ≤ '9')))

/-- Embedding of `sanitize_filename` (src/main.py line 30): replace dollar
signs by s, remove spaces, keep only `[a-zA-Z0-9_.-]`. -/
def sanitize_filename (fn : Str) : Str :=
  (((fn.map (fun c => if c = '$' then 's' else c)).filter (fun c => !(c == ' '))).filter
    (fun c => ('a' ≤ c && c ≤ 'z') || ('A' ≤ c && c ≤ 'Z') || ('0' ≤ c && c ≤ '9') ||
      c == '_' || c == '.' || c == '-'))

/-- Python `os.path.basename`: everything after the last slash. -/
def basename (s : Str) : Str :=
  ((s.reverse.takeWhile (fun c => !(c == '/'))).reverse)

/-- First-match association lookup, modelling Python dict access. -/
def lookup : List (Str × Str) → Str → Option Str
  | [], _ => none
  | (a, b) :: t, k => if a = k then some b else lookup t k

/-- Python dict assignment `m[k] = v`: update in place or append. -/
def insertKV : List (Str × Str) → Str → Str → List (Str × Str)
  | [], k, v => [(k, v)]
  | (a, b) :: t, k, v => if a = k then (k, v) :: t else (a, b) :: insertKV t k v

/-- The `to_update` comprehension of `run_once` (src/main.py lines 207-210):
entries of `remote` absent from `cached` or cached under a different URL. -/
def diff (remote cached : List (Str × Str)) : List (Str × Str) :=
  remote.filter (fun kv => decide (¬ lookup cached kv.1 = some kv.2))

/-- Calendar date, modelling `datetime.date`. -/
structure Date where
  year : Nat
  month : Nat
  day : Nat
deriving DecidableEq

/-- Gregorian leap-year rule used by `datetime`. -/
def isLeap (y : Nat) : Bool :=
  (y % 4 == 0 && y % 100 != 0) || y % 400 == 0

/-- Number of days in a month, as validated by the `datetime` constructor. -/
def daysInMonth (y m : Nat) : Nat :=
  if m = 2 then (if isLeap y then 29 else 28)
  else if m = 4 ∨ m = 6 ∨ m = 9 ∨ m = 11 then 30
  else 31

/-- Strict ordering on dates, modelling Python `date` comparison. -/
def dateLt (a b : Date) : Bool :=
  if a.year < b.year then true
  else if b.year < a.year then false
  else if a.month < b.month then true
  else if b.month < a.month then false
  else if a.day < b.day then true
  else false

/-- Numeric value of a decimal digit character. -/
def digitVal (c : Char) : Nat := c.toNat - 48

/-- Decimal value of a digit string. -/
def digitsToNat (ds : List Char) : Nat :=
  ds.foldl (fun acc c => 10 * acc + digitVal c) 0

/-- Take up to `n` leading decimal digits, returning them and the rest. -/
def takeDigits : Nat → List Char → List Char × List Char
  | 0, s => ([], s)
  | _ + 1, [] => ([], [])
  | n + 1, c :: t =>
    if c.isDigit then
      let pr := takeDigits n t
      (c :: pr.1, pr.2)
    else ([], c :: t)

/-- Embedding of `datetime.strptime(s, "%Y-%m-%d").date()`: a four-digit
year, one or two digit month and day separated by dashes, the whole string
consumed, validated against the calendar (month 1-12, day within month,
year at least 1). Returns none where Python raises `ValueError`. -/
def strptimeYmd (s : Str) : Option Date :=
  let pr1 := takeDigits 4 s
  if pr1.1.length ≠ 4 then none
  else
    match pr1.2 with
    | '-' :: r2 =>
      let pr2 := takeDigits 2 r2
      if pr2.1.length = 0 then none
      else
        match pr2.2 with
        | '-' :: r4 =>
          let pr3 := takeDigits 2 r4
          if pr3.1.length = 0 then none
          else if pr3.2 ≠ [] then none
          else
            let y := digitsToNat pr1.1
            let m := digitsToNat pr2.1
            let d := digitsToNat pr3.1
            if 1 ≤ y ∧ 1 ≤ m ∧ m ≤ 12 ∧ 1 ≤ d ∧ d ≤ daysInMonth y m then
              some ⟨y, m, d⟩
            else none
        | _ => none
    | _ => none

/-- Zero-padded decimal rendering of width `w`. -/
def padNum (w n : Nat) : Str :=
  let ds := Nat.toDigits 10 n
  List.replicate (w - ds.length) '0' ++ ds

/-- Embedding of `datetime.now().strftime("%Y-%m-%d")` for a given date. -/
def formatYmd (d : Date) : Str :=
  padNum 4 d.year ++ ['-'] ++ padNum 2 d.month ++ ['-'] ++ padNum 2 d.day

/-- Embedding of `should_archive_today` (src/main.py line 80): parse the
stored date; any parse failure (including a missing value) means archive. -/
def should_archive_today (lastarchive : Option Str) (today : Date) : Bool :=
  match lastarchive with
  | none => true
  | some s =>
    match strptimeYmd s with
    | none => true
    | some d => dateLt d today

/-- Value stored for the `sha256` key: the hash, or the rendering of
Python `None` when `sha256_of_file` failed. -/
def shaValue : Option Str → Str
  | some h => h
  | none => str "None"

/-- Observable outcome of one `archive_file` call (src/main.py line 87):
the metadata record persisted after the call, whether the external archive
service was invoked, and whether `save_metadata` ran. -/
structure ArchiveResult where
  finalMeta : List (Str × Str)
  called : Bool
  wrote : Bool
deriving DecidableEq

/-- Embedding of `archive_file`. `meta` is the metadata record loaded at
entry, `sha` the result of `sha256_of_file`, `today` the current date and
`submitOk` the outcome of the external `WaybackMachineSaveAPI.save` call. -/
def archive_file (meta : List (Str × Str)) (sha : Option Str) (today : Date)
    (submitOk : Bool) : ArchiveResult :=
  if should_archive_today (lookup meta (str "lastarchive")) today = false then
    ⟨meta, false, false⟩
  else if submitOk then
    ⟨insertKV (insertKV meta (str "sha256") (shaValue sha)) (str "lastarchive")
      (formatYmd today), true, true⟩
  else ⟨meta, true, false⟩

/-- One row of the fetched catalog as seen by `csv.DictReader`: each field
is `none` when the column is missing from the payload (Python `KeyError`
on access, or the `row.get` default for the selection column). -/
structure Row where
  best : Option Str
  artistName : Option Str
  url : Option Str
deriving DecidableEq

/-- The selection test of `parse_csv` (src/main.py line 169):
`row.get("Best", "").strip().lower() == "yes"`. -/
def rowSelected (row : Row) : Bool :=
  decide (pyLower (pyStrip (row.best.getD [])) = str "yes")

/-- Accumulator pass of `parse_csv` over the rows. `none` models the
`KeyError` a selected row raises when its name or URL column is missing;
the exception escapes `parse_csv` into the caller's handler. -/
def parse_csv_aux : List Row → List (Str × Str) → Option (List (Str × Str))
  | [], acc => some acc
  | row :: rest, acc =>
    if rowSelected row then
      match row.artistName, row.url with
      | some an, some u =>
        (match clean_url u with
         | some cu =>
           if normalize_artist_name an = [] then parse_csv_aux rest acc
           else parse_csv_aux rest (insertKV acc (normalize_artist_name an) cu)
         | none => parse_csv_aux rest acc)
      | _, _ => none
    else parse_csv_aux rest acc

/-- Embedding of `parse_csv` (src/main.py line 165). -/
def parse_csv (rows : List Row) : Option (List (Str × Str)) :=
  parse_csv_aux rows []

/-- The normalized key a row contributes to the catalog mapping, if any:
present exactly when the row is selected, both columns are present, the
URL is accepted by `clean_url` and the normalized name is nonempty. -/
def rowKey (row : Row) : Option Str :=
  if rowSelected row then
    match row.artistName, row.url with
    | some an, some u =>
      (match clean_url u with
       | some _ =>
         if normalize_artist_name an = [] then none
         else some (normalize_artist_name an)
       | none => none)
    | _, _ => none
  else none

/-- Outcome of one HTTP GET as observed through `requests`: success,
an HTTP error status raised by `raise_for_status`, or any other
transport-level exception. -/
inductive HttpOutcome where
  | success
  | httpError (status : Nat)
  | otherError
deriving DecidableEq

/-- The XLSX export URL built by `download_exports` (src/main.py line 117). -/
def xlsxUrl (sheet_id : Str) : Str :=
  gdocPre ++ sheet_id ++ str "/export?format=xlsx"

/-- The ZIP export URL built by `download_exports` (src/main.py line 133). -/
def zipUrl (sheet_id : Str) : Str :=
  gdocPre ++ sheet_id ++ str "/export?format=zip"

/-- Observable effects of one `download_exports` call: the lines appended
to the failure log `host/down.txt`, whether each export file was written,
and the sanitized names extracted from the ZIP members. -/
structure DlEffects where
  logLines : List Str
  xlsxSaved : Bool
  zipSaved : Bool
  extracted : List Str
deriving DecidableEq

/-- Embedding of `download_exports` (src/main.py line 112): two independent
retrievals; an HTTP 401 on either appends that format's URL to the failure
log; ZIP members with a nonempty base name are extracted under sanitized
names when the ZIP retrieval succeeds. -/
def download_exports (sheet_id : Str) (xlsxRes zipRes : HttpOutcome)
    (zipMembers : List Str) : DlEffects :=
  let xlog : List Str :=
    match xlsxRes with
    | .httpError s => if s = 401 then [xlsxUrl sheet_id] else []
    | _ => []
  let zlog : List Str :=
    match zipRes with
    | .httpError s => if s = 401 then [zipUrl sheet_id] else []
    | _ => []
  { logLines := xlog ++ zlog
    xlsxSaved := xlsxRes = HttpOutcome.success
    zipSaved := zipRes = HttpOutcome.success
    extracted :=
      if zipRes = HttpOutcome.success then
        zipMembers.filterMap (fun mem =>
          if basename mem = [] then none else some (sanitize_filename (basename mem)))
      else [] }

/-- Observable effects of one `run_once` cycle (src/main.py line 194) on
the catalog store: the cache contents after the cycle, whether `save_csv`
ran, the computed change set, and the per-entity downloads started. -/
structure CycleEffects where
  cacheAfter : List (Str × Str)
  cacheWritten : Bool
  toUpdate : List (Str × Str)
  downloads : List (Str × Str)
deriving DecidableEq

/-- Embedding of `run_once`. `fetched` is the remote catalog payload:
`none` when the GET raised or returned a non-2xx status; a parse failure
inside the same `try` block likewise aborts before any further effect. -/
def run_once (fetched : Option (List Row)) (cached : List (Str × Str)) : CycleEffects :=
  match fetched with
  | none => ⟨cached, false, [], []⟩
  | some rows =>
    match parse_csv rows with
    | none => ⟨cached, false, [], []⟩
    | some remote =>
      let toUpd := diff remote cached
      ⟨remote, true, toUpd,
        toUpd.filterMap (fun kv => (extract_sheet_id kv.2).map (fun sid => (kv.1, sid)))⟩

theorem stripLit_append (p r : List Char) : stripLit p (p ++ r) = some r := by
  induction p with
  | nil => rfl
  | cons a ps ih => simp [stripLit, ih]

theorem stripLit_eq_some {p s r : List Char} (h : stripLit p s = some r) : s = p ++ r := by
  induction p generalizing s with
  | nil => simpa [stripLit] using h
  | cons a ps ih =>
    cases s with
    | nil => simp [stripLit] at h
    | cons c cs =>
      by_cases hc : c = a
      · subst hc
        simp only [stripLit, if_pos rfl] at h
        simpa using ih h
      · simp [stripLit, hc] at h

theorem takeExact_of_all (p : Char → Bool) (g : List Char) (hall : ∀ c ∈ g, p c = true)
    (r : List Char) : takeExact p g.length (g ++ r) = some (g, r) := by
  induction g with
  | nil => rfl
  | cons c t ih =>
    have hc : p c = true := hall c (List.mem_cons_self c t)
    have ht := ih (fun x hx => hall x (List.mem_cons_of_mem c hx))
    simp only [List.length_cons, List.cons_append, takeExact, hc, if_true, List.append_eq, ht]

theorem takeExact_eq_some {p : Char → Bool} {n : Nat} {s g r : List Char}
    (h : takeExact p n s = some (g, r)) :
    g.length = n ∧ (∀ c ∈ g, p c = true) ∧ s = g ++ r := by
  induction n generalizing s g with
  | zero =>
    simp only [takeExact, Option.some.injEq, Prod.mk.injEq] at h
    obtain ⟨h1, h2⟩ := h
    subst h1; subst h2
    simp
  | succ n ih =>
    cases s with
    | nil => simp [takeExact] at h
    | cons c cs =>
      by_cases hc : p c = true
      · cases htc : takeExact p n cs with
        | none => simp [takeExact, hc, htc] at h
        | some pr =>
          obtain ⟨g2, r2⟩ := pr
          simp only [takeExact, hc, if_true, htc, Option.some.injEq, Prod.mk.injEq] at h
          obtain ⟨hg, hr⟩ := h
          subst hr
          obtain ⟨ha, hb, hcc⟩ := ih htc
          subst hg
          refine ⟨by simp [ha], ?_, by simp [hcc]⟩
          intro x hx
          rcases List.mem_cons.mp hx with hxc | hxm
          · rw [hxc]; exact hc
          · exact hb x hxm
      · simp [takeExact, hc] at h

theorem cleanAt_eq_some {s g : Str} (h : cleanAt s = some g) :
    ∃ r, s = gdocPre ++ g ++ r ∧ g.length = 44 ∧ ∀ c ∈ g, isIdChar c = true := by
  cases hs : stripLit gdocPre s with
  | none => simp [cleanAt, hs] at h
  | some rest =>
    cases ht : takeExact isIdChar 44 rest with
    | none => simp [cleanAt, hs, ht] at h
    | some pr =>
      obtain ⟨g2, r2⟩ := pr
      simp only [cleanAt, hs, ht, Option.some.injEq] at h
      subst h
      obtain ⟨hlen, hall, hsplit⟩ := takeExact_eq_some ht
      exact ⟨r2, by rw [stripLit_eq_some hs, hsplit, List.append_assoc], hlen, hall⟩

theorem cleanAt_of_split {g : Str} (r : Str) (hlen : g.length = 44)
    (hall : ∀ c ∈ g, isIdChar c = true) : cleanAt (gdocPre ++ (g ++ r)) = some g := by
  have h := takeExact_of_all isIdChar g hall r
  rw [hlen] at h
  simp [cleanAt, stripLit_append, h]

theorem cleanAux_iff (u : Str) :
    (∃ g, cleanAux u = some g) ↔
      ∃ s g r, u = s ++ gdocPre ++ g ++ r ∧ g.length = 44 ∧ ∀ c ∈ g, isIdChar c = true := by
  induction u with
  | nil =>
    constructor
    · rintro ⟨g, hg⟩; simp [cleanAux] at hg
    · rintro ⟨s, g, r, habs, hlen, -⟩
      exfalso
      have hl := congrArg List.length habs
      simp [gdocPre, str, hlen] at hl
      omega
  | cons c t ih =>
    constructor
    · rintro ⟨g, hg⟩
      unfold cleanAux at hg
      cases hAt : cleanAt (c :: t) with
      | some gg =>
        rw [hAt] at hg
        simp only [Option.some.injEq] at hg
        subst hg
        obtain ⟨r, hsplit, hlen, hall⟩ := cleanAt_eq_some hAt
        exact ⟨[], gg, r, by simpa using hsplit, hlen, hall⟩
      | none =>
        rw [hAt] at hg
        obtain ⟨s, gg, r, hsplit, hlen, hall⟩ := ih.mp ⟨g, hg⟩
        exact ⟨c :: s, gg, r, by simp [hsplit], hlen, hall⟩
    · rintro ⟨s, g, r, hsplit, hlen, hall⟩
      unfold cleanAux
      cases hAt : cleanAt (c :: t) with
      | some gg => exact ⟨gg, rfl⟩
      | none =>
        cases s with
        | nil =>
          exfalso
          simp only [List.nil_append] at hsplit
          rw [List.append_assoc] at hsplit
          rw [hsplit, cleanAt_of_split r hlen hall] at hAt
          exact Option.noConfusion hAt
        | cons c2 s2 =>
          simp only [List.cons_append] at hsplit
          obtain ⟨-, hts⟩ := List.cons_eq_cons.mp hsplit
          exact ih.mpr ⟨s2, g, r, by simp [hts], hlen, hall⟩

theorem cleanAux_props {u g : Str} (h : cleanAux u = some g) :
    g.length = 44 ∧ ∀ c ∈ g, isIdChar c = true := by
  induction u with
  | nil => simp [cleanAux] at h
  | cons c t ih =>
    unfold cleanAux at h
    cases hAt : cleanAt (c :: t) with
    | some gg =>
      rw [hAt] at h
      simp only [Option.some.injEq] at h
      subst h
      obtain ⟨r, -, hlen, hall⟩ := cleanAt_eq_some hAt
      exact ⟨hlen, hall⟩
    | none =>
      rw [hAt] at h
      exact ih h

theorem extract_roundtrip (id : Str) (hlen : id.length = 44)
    (hall : ∀ c ∈ id, isIdChar c = true) :
    extract_sheet_id (gdocPre ++ id ++ ['/']) = some id := by
  have htake : takeExact isIdChar 44 (id ++ ['/']) = some (id, ['/']) := by
    have h := takeExact_of_all isIdChar id hall ['/']
    rwa [hlen] at h
  have h1 : extractAux (gdocPre ++ (id ++ ['/'])) =
      (match extractAt ('/' :: 'd' :: '/' :: (id ++ ['/'])) with
       | some g => some g
       | none => extractAux ('d' :: '/' :: (id ++ ['/']))) := rfl
  have h2 : extractAt ('/' :: 'd' :: '/' :: (id ++ ['/'])) =
      (match takeExact isIdChar 44 (id ++ ['/']) with
       | none => none
       | some (g, r) =>
         match r with
         | '/' :: _ => some g
         | _ => none) := rfl
  rw [extract_sheet_id, List.append_assoc, h1, h2, htake]
  rfl

theorem lookup_insertKV_self (m : List (Str × Str)) (k v : Str) :
    lookup (insertKV m k v) k = some v := by
  induction m with
  | nil => simp [insertKV, lookup]
  | cons kv t ih =>
    obtain ⟨a, b⟩ := kv
    by_cases ha : a = k
    · simp [insertKV, ha, lookup]
    · simp [insertKV, ha, lookup, ih]

theorem lookup_insertKV_ne (m : List (Str × Str)) (k v k2 : Str) (h : k2 ≠ k) :
    lookup (insertKV m k v) k2 = lookup m k2 := by
  induction m with
  | nil => simp [insertKV, lookup, Ne.symm h]
  | cons kv t ih =>
    obtain ⟨a, b⟩ := kv
    by_cases ha : a = k
    · subst ha
      simp [insertKV, lookup, Ne.symm h]
    · simp only [insertKV, if_neg ha, lookup]
      by_cases ha2 : a = k2
      · simp [ha2]
      · simp [ha2, ih]

theorem lookup_insertKV_exists (acc : List (Str × Str)) (a u k : Str) :
    (∃ v, lookup (insertKV acc a u) k = some v) ↔ k = a ∨ ∃ v, lookup acc k = some v := by
  by_cases hk : k = a
  · subst hk
    simp [lookup_insertKV_self]
  · rw [lookup_insertKV_ne acc a u k hk]
    simp [hk]

theorem lookup_eq_some_mem {m : List (Str × Str)} {k v : Str}
    (h : lookup m k = some v) : (k, v) ∈ m := by
  induction m with
  | nil => simp [lookup] at h
  | cons kv t ih =>
    obtain ⟨a, b⟩ := kv
    by_cases ha : a = k
    · subst ha
      simp only [lookup, if_pos, Option.some.injEq] at h
      subst h
      exact List.mem_cons_self _ _
    · simp only [lookup, if_neg ha] at h
      exact List.mem_cons_of_mem _ (ih h)

theorem mem_lookup_of_nodup {m : List (Str × Str)} {k v : Str}
    (hnd : (m.map Prod.fst).Nodup) (h : (k, v) ∈ m) : lookup m k = some v := by
  induction m with
  | nil => simp at h
  | cons kv t ih =>
    obtain ⟨a, b⟩ := kv
    simp only [List.map_cons, List.nodup_cons] at hnd
    obtain ⟨hna, hnt⟩ := hnd
    rcases List.mem_cons.mp h with hh | hh
    · simp only [Prod.mk.injEq] at hh
      obtain ⟨rfl, rfl⟩ := hh
      simp [lookup]
    · by_cases ha : a = k
      · exfalso
        subst ha
        exact hna (List.mem_map.mpr ⟨(a, v), hh, rfl⟩)
      · simp only [lookup, if_neg ha]
        exact ih hnt hh

theorem dateLt_irrefl (d : Date) : dateLt d d = false := by
  simp [dateLt]

theorem parse_aux_keys (rows : List Row) (acc m : List (Str × Str))
    (h : parse_csv_aux rows acc = some m) (k : Str) :
    (∃ v, lookup m k = some v) ↔
      (∃ v, lookup acc k = some v) ∨ ∃ row ∈ rows, rowKey row = some k := by
  induction rows generalizing acc with
  | nil =>
    simp only [parse_csv_aux, Option.some.injEq] at h
    subst h
    simp
  | cons row rest ih =>
    by_cases hsel : rowSelected row
    · cases han : row.artistName with
      | none =>
        exfalso
        simp [parse_csv_aux, hsel, han] at h
      | some an =>
        cases hu : row.url with
        | none =>
          exfalso
          simp [parse_csv_aux, hsel, han, hu] at h
        | some u =>
          cases hcu : clean_url u with
          | none =>
            simp only [parse_csv_aux, if_pos hsel, han, hu, hcu] at h
            rw [ih acc h]
            simp [rowKey, hsel, han, hu, hcu]
          | some cu =>
            by_cases hempty : normalize_artist_name an = []
            · simp only [parse_csv_aux, if_pos hsel, han, hu, hcu, if_pos hempty] at h
              rw [ih acc h]
              simp [rowKey, hsel, han, hu, hcu, hempty]
            · simp only [parse_csv_aux, if_pos hsel, han, hu, hcu, if_neg hempty] at h
              rw [ih _ h]
              rw [lookup_insertKV_exists]
              simp only [rowKey, if_pos hsel, han, hu, hcu, if_neg hempty]
              constructor
              · rintro ((hc | hc) | hc)
                · exact Or.inr ⟨row, List.mem_cons_self _ _, by simp [rowKey, hsel, han, hu, hcu, hempty, hc]⟩
                · exact Or.inl hc
                · obtain ⟨r2, hr2, hk2⟩ := hc
                  exact Or.inr ⟨r2, List.mem_cons_of_mem _ hr2, hk2⟩
              · rintro (hc | ⟨r2, hr2, hk2⟩)
                · exact Or.inl (Or.inr hc)
                · rcases List.mem_cons.mp hr2 with rfl | hmem
                  · simp only [rowKey, if_pos hsel, han, hu, hcu, if_neg hempty,
                      Option.some.injEq] at hk2
                    exact Or.inl (Or.inl hk2.symm)
                  · exact Or.inr ⟨r2, hmem, hk2⟩
    · simp only [parse_csv_aux, if_neg hsel] at h
      rw [ih acc h]
      simp [rowKey, hsel]

theorem rowKey_ne_empty (row : Row) : rowKey row ≠ some [] := by
  unfold rowKey
  by_cases hsel : rowSelected row
  · rw [if_pos hsel]
    cases han : row.artistName with
    | none => simp
    | some an =>
      cases hu : row.url with
      | none => simp
      | some u =>
        cases hcu : clean_url u with
        | none => simp [hcu]
        | some cu =>
          by_cases hempty : normalize_artist_name an = []
          · simp [hcu, hempty]
          · simp [hcu, hempty]
  · simp [if_neg hsel]

theorem xlsxUrl_ne_zipUrl (sheet_id : Str) : xlsxUrl sheet_id ≠ zipUrl sheet_id := by
  intro h
  have hl := congrArg List.length h
  simp [xlsxUrl, zipUrl, str] at hl

/-- C1 (counterexample): with an empty remote catalog and a nonempty
cached catalog the computed change set is empty although the two mappings
disagree on the key "a", refuting "empty iff equal as mappings". -/
theorem diff_empty_ne_mappings_cex :
    diff ([] : List (Str × Str)) [(str "a", str "u")] = [] ∧
      lookup ([] : List (Str × Str)) (str "a") ≠ lookup [(str "a", str "u")] (str "a") := by
  refine ⟨rfl, by decide⟩

/-- C1 (amended): the change set is empty iff every entry of the remote
mapping is present in the cached mapping with the same URL (the cached
mapping may hold extra keys); and if remote equals cached plus exactly one
key absent from cached, the change set contains exactly that entry. -/
theorem diff_empty_iff_submap (remote cached : List (Str × Str))
    (hnd : (remote.map Prod.fst).Nodup) :
    (diff remote cached = [] ↔ ∀ k v, lookup remote k = some v → lookup cached k = some v) ∧
      ∀ k v, lookup cached k = none →
        (∀ a, lookup remote a = if a = k then some v else lookup cached a) →
        ∀ a w, ((a, w) ∈ diff remote cached ↔ a = k ∧ w = v) := by
  constructor
  · rw [diff, List.filter_eq_nil_iff]
    constructor
    · intro hall k v hlk
      have hm := lookup_eq_some_mem hlk
      have := hall (k, v) hm
      simpa using this
    · intro hsub kv hmem
      obtain ⟨k, v⟩ := kv
      have hlk := mem_lookup_of_nodup hnd hmem
      have := hsub k v hlk
      simp [this]
  · intro k v hck heq a w
    constructor
    · intro hmem
      obtain ⟨hmem2, hpred⟩ := List.mem_filter.mp hmem
      have hla : lookup remote a = some w := mem_lookup_of_nodup hnd hmem2
      by_cases hak : a = k
      · subst hak
        rw [heq a, if_pos rfl] at hla
        simp only [Option.some.injEq] at hla
        exact ⟨rfl, hla.symm⟩
      · rw [heq a, if_neg hak] at hla
        exfalso
        simp [hla] at hpred
    · rintro ⟨rfl, rfl⟩
      apply List.mem_filter.mpr
      have hlk : lookup remote a = some w := by rw [heq a, if_pos rfl]
      refine ⟨lookup_eq_some_mem hlk, ?_⟩
      simp [hck]

/-- C1 (witness): the amended theorem applied to a concrete one-entry
remote catalog and an empty cache. -/
theorem diff_empty_iff_submap_witness :
    diff [(str "a", str "u")] ([] : List (Str × Str)) = [] ↔
      ∀ k v, lookup [(str "a", str "u")] k = some v →
        lookup ([] : List (Str × Str)) k = some v :=
  (diff_empty_iff_submap [(str "a", str "u")] [] (by decide)).1

/-- C2 (counterexample): a URL whose identifier segment has 45 valid
characters is not rejected: `clean_url` accepts it and truncates the
identifier to its first 44 characters. -/
theorem clean_url_long_id_cex :
    clean_url (gdocPre ++ (id44 ++ ['A'])) = some (gdocPre ++ id44 ++ ['/']) := by
  decide

/-- C2 (amended): `clean_url` accepts a URL iff it contains the literal
document-sharing prefix followed by at least 44 characters of
`[a-zA-Z0-9-_]`; when it accepts, the canonical URL is exactly the prefix,
a 44-character identifier of such characters, and a trailing slash. -/
theorem clean_url_spec (u : Str) :
    ((∃ cu, clean_url u = some cu) ↔
      ∃ s g r, u = s ++ gdocPre ++ g ++ r ∧ g.length = 44 ∧ ∀ c ∈ g, isIdChar c = true) ∧
      ∀ cu, clean_url u = some cu →
        ∃ g, g.length = 44 ∧ (∀ c ∈ g, isIdChar c = true) ∧ cu = gdocPre ++ g ++ ['/'] := by
  constructor
  · rw [← cleanAux_iff]
    constructor
    · rintro ⟨cu, hcu⟩
      unfold clean_url at hcu
      cases hca : cleanAux u with
      | none => rw [hca] at hcu; exact absurd hcu (by simp)
      | some g => exact ⟨g, rfl⟩
    · rintro ⟨g, hg⟩
      exact ⟨gdocPre ++ g ++ ['/'], by simp [clean_url, hg]⟩
  · intro cu hcu
    unfold clean_url at hcu
    cases hca : cleanAux u with
    | none => rw [hca] at hcu; simp at hcu
    | some g =>
      rw [hca] at hcu
      simp only [Option.some.injEq] at hcu
      obtain ⟨hlen, hall⟩ := cleanAux_props hca
      exact ⟨g, hlen, hall, hcu.symm⟩

/-- C2 (witness): the amended theorem applied to the concrete URL made of
the prefix and a 44-character identifier. -/
theorem clean_url_spec_witness :
    ∃ g, g.length = 44 ∧ (∀ c ∈ g, isIdChar c = true) ∧
      gdocPre ++ id44 ++ ['/'] = gdocPre ++ g ++ ['/'] :=
  (clean_url_spec (gdocPre ++ id44)).2 (gdocPre ++ id44 ++ ['/']) (by decide)

/-- C3 (counterexample): a successful archive with a pre-existing metadata
record holding an extra key persists a record that still carries that key,
so the write is a merge, not a record consisting only of the content hash
and the archive date. -/
theorem archive_record_merge_cex :
    (archive_file [(str "extra", str "1")] (some (str "h")) ⟨2026, 10, 12⟩ true).wrote
        = true ∧
      lookup (archive_file [(str "extra", str "1")] (some (str "h"))
        ⟨2026, 10, 12⟩ true).finalMeta (str "extra") = some (str "1") := by
  refine ⟨by decide, by decide⟩

/-- C3 (amended): on a successful submission the metadata record is
rewritten so that `sha256` holds the freshly computed content hash and
`lastarchive` the current date rendered as YYYY-MM-DD; any other
pre-existing key keeps its previous value (a merge, written wholesale). -/
theorem archive_record_update (meta : List (Str × Str)) (sha : Option Str) (d : Date)
    (h : should_archive_today (lookup meta (str "lastarchive")) d = true) :
    (archive_file meta sha d true).wrote = true ∧
      (archive_file meta sha d true).called = true ∧
      lookup (archive_file meta sha d true).finalMeta (str "sha256") = some (shaValue sha) ∧
      lookup (archive_file meta sha d true).finalMeta (str "lastarchive")
          = some (formatYmd d) ∧
      ∀ k, k ≠ str "sha256" → k ≠ str "lastarchive" →
        lookup (archive_file meta sha d true).finalMeta k = lookup meta k := by
  have harch : archive_file meta sha d true =
      ⟨insertKV (insertKV meta (str "sha256") (shaValue sha)) (str "lastarchive")
        (formatYmd d), true, true⟩ := by
    simp [archive_file, h]
  rw [harch]
  refine ⟨rfl, rfl, ?_, ?_, ?_⟩
  · rw [lookup_insertKV_ne _ _ _ _ (by decide), lookup_insertKV_self]
  · rw [lookup_insertKV_self]
  · intro k hk1 hk2
    rw [lookup_insertKV_ne _ _ _ _ hk2, lookup_insertKV_ne _ _ _ _ hk1]

/-- C3 (witness): the amended theorem applied to a concrete record. -/
theorem archive_record_update_witness :
    lookup (archive_file [(str "extra", str "1")] (some (str "h"))
        ⟨2026, 10, 12⟩ true).finalMeta (str "sha256") = some (shaValue (some (str "h"))) :=
  (archive_record_update [(str "extra", str "1")] (some (str "h")) ⟨2026, 10, 12⟩
    (by decide)).2.2.1

/-- C4: when the remote fetch fails (transport error or non-2xx status,
modelled by a missing payload) or the payload fails to parse, the cycle
leaves the cached catalog exactly unchanged and never writes it. -/
theorem fetch_failure_preserves_cache (fetched : Option (List Row))
    (cached : List (Str × Str))
    (h : fetched = none ∨ ∃ rows, fetched = some rows ∧ parse_csv rows = none) :
    (run_once fetched cached).cacheAfter = cached ∧
      (run_once fetched cached).cacheWritten = false := by
  rcases h with rfl | ⟨rows, rfl, hp⟩
  · exact ⟨rfl, rfl⟩
  · simp [run_once, hp]

/-- C4 (witness): the theorem applied to a failed fetch over a concrete
nonempty cache. -/
theorem fetch_failure_preserves_cache_witness :
    (run_once none [(str "a", str "u")]).cacheAfter = [(str "a", str "u")] ∧
      (run_once none [(str "a", str "u")]).cacheWritten = false :=
  fetch_failure_preserves_cache none [(str "a", str "u")] (Or.inl rfl)

/-- C5: when the stored `lastarchive` value parses to today's date, the
archive step terminates skipped: the metadata is unchanged, the external
service is not called and nothing is written, whatever the content hash
and whatever the submission would have returned. -/
theorem archive_skipped_today (meta : List (Str × Str)) (sha : Option Str) (d : Date)
    (s : Str) (submitOk : Bool)
    (h1 : lookup meta (str "lastarchive") = some s)
    (h2 : strptimeYmd s = some d) :
    archive_file meta sha d submitOk = ⟨meta, false, false⟩ := by
  have hsk : should_archive_today (lookup meta (str "lastarchive")) d = false := by
    rw [h1]
    simp [should_archive_today, h2, dateLt_irrefl]
  simp [archive_file, hsk]

/-- C5 (witness): the theorem applied to a concrete record archived today. -/
theorem archive_skipped_today_witness :
    archive_file [(str "lastarchive", str "2026-10-12")] (some (str "h"))
        ⟨2026, 10, 12⟩ true
      = ⟨[(str "lastarchive", str "2026-10-12")], false, false⟩ :=
  archive_skipped_today [(str "lastarchive", str "2026-10-12")] (some (str "h"))
    ⟨2026, 10, 12⟩ (str "2026-10-12") true (by decide) (by decide)

/-- C6: when the external submission raises, nothing is persisted: the
metadata record is exactly the one loaded at entry, no write happens, and
the file is still due for archiving on the next cycle that reaches it. -/
theorem archive_failure_no_persist (meta : List (Str × Str)) (sha : Option Str) (d : Date)
    (h : should_archive_today (lookup meta (str "lastarchive")) d = true) :
    archive_file meta sha d false = ⟨meta, true, false⟩ ∧
      should_archive_today
        (lookup (archive_file meta sha d false).finalMeta (str "lastarchive")) d = true := by
  have harch : archive_file meta sha d false = ⟨meta, true, false⟩ := by
    simp [archive_file, h]
  exact ⟨harch, by rw [harch]; exact h⟩

/-- C6 (witness): the theorem applied to a file with no metadata. -/
theorem archive_failure_no_persist_witness :
    archive_file ([] : List (Str × Str)) none ⟨2026, 10, 12⟩ false = ⟨[], true, false⟩ ∧
      should_archive_today
        (lookup (archive_file ([] : List (Str × Str)) none ⟨2026, 10, 12⟩ false).finalMeta
          (str "lastarchive")) ⟨2026, 10, 12⟩ = true :=
  archive_failure_no_persist [] none ⟨2026, 10, 12⟩ (by decide)

/-- C7: an HTTP 401 on either export format appends exactly one line, the
failing format's URL, to the failure log; and the effects of each format
are independent of the other format's outcome, so a failure of one never
blocks the other. -/
theorem download_log_isolation (sheet_id : Str) (x x2 z z2 : HttpOutcome)
    (mem : List Str) :
    (x = HttpOutcome.httpError 401 →
      (download_exports sheet_id x z mem).logLines.count (xlsxUrl sheet_id) = 1) ∧
      (z = HttpOutcome.httpError 401 →
        (download_exports sheet_id x z mem).logLines.count (zipUrl sheet_id) = 1) ∧
      (download_exports sheet_id x z mem).zipSaved
          = (download_exports sheet_id x2 z mem).zipSaved ∧
      (download_exports sheet_id x z mem).extracted
          = (download_exports sheet_id x2 z mem).extracted ∧
      (download_exports sheet_id x z mem).xlsxSaved
          = (download_exports sheet_id x z2 mem).xlsxSaved := by
  have hne := xlsxUrl_ne_zipUrl sheet_id
  refine ⟨?_, ?_, rfl, rfl, rfl⟩
  · rintro rfl
    cases z with
    | success => simp [download_exports, List.count_cons, List.count_nil]
    | otherError => simp [download_exports, List.count_cons, List.count_nil]
    | httpError s =>
      by_cases hs : s = 401
      · subst hs
        simp [download_exports, List.count_cons, List.count_nil, hne, Ne.symm hne]
      · simp [download_exports, hs, List.count_cons, List.count_nil]
  · rintro rfl
    cases x with
    | success => simp [download_exports, List.count_cons, List.count_nil]
    | otherError => simp [download_exports, List.count_cons, List.count_nil]
    | httpError s =>
      by_cases hs : s = 401
      · subst hs
        simp [download_exports, List.count_cons, List.count_nil, hne, Ne.symm hne]
      · simp [download_exports, hs, List.count_cons, List.count_nil]

/-- C7 (witness): the theorem applied to a 401 on the XLSX format with a
successful ZIP retrieval. -/
theorem download_log_isolation_witness :
    (download_exports (str "s") (HttpOutcome.httpError 401) HttpOutcome.success
        []).logLines.count (xlsxUrl (str "s")) = 1 :=
  (download_log_isolation (str "s") (HttpOutcome.httpError 401)
    HttpOutcome.success HttpOutcome.success HttpOutcome.success []).1 rfl

/-- C8 (counterexample): a row whose selection column is "yes" and whose
URL is accepted by `clean_url` is nevertheless dropped when its artist
name normalizes to the empty string, refuting the stated iff. -/
theorem parse_csv_selected_dropped_cex :
    rowSelected ⟨some (str "yes"), some (str "!!!"), some (gdocPre ++ id44)⟩ = true ∧
      clean_url (gdocPre ++ id44) = some (gdocPre ++ id44 ++ ['/']) ∧
      parse_csv [⟨some (str "yes"), some (str "!!!"), some (gdocPre ++ id44)⟩]
        = some [] := by
  refine ⟨by decide, by decide, by decide⟩

/-- C8 (amended): a key is present in the parsed catalog mapping iff some
row carries it: that row's selection column, trimmed and lowercased,
equals "yes", both its name and URL columns are present, its URL is
accepted by `clean_url`, and its name normalizes to that (nonempty) key. -/
theorem parse_csv_inclusion (rows : List Row) (m : List (Str × Str))
    (h : parse_csv rows = some m) (k : Str) :
    (∃ v, lookup m k = some v) ↔ ∃ row ∈ rows, rowKey row = some k := by
  have hiff := parse_aux_keys rows [] m h k
  simpa [lookup] using hiff

/-- C8 (witness): the amended theorem applied to a concrete one-row
payload and its parsed mapping. -/
theorem parse_csv_inclusion_witness :
    (∃ v, lookup [(str "a", gdocPre ++ id44 ++ ['/'])] (str "a") = some v) ↔
      ∃ row ∈ [(⟨some (str "yes"), some (str "A"), some (gdocPre ++ id44)⟩ : Row)],
        rowKey row = some (str "a") :=
  parse_csv_inclusion [⟨some (str "yes"), some (str "A"), some (gdocPre ++ id44)⟩]
    [(str "a", gdocPre ++ id44 ++ ['/'])] (by decide) (str "a")

/-- C9: the empty string is never a key of a successfully parsed catalog
mapping: rows whose name normalizes to the empty string are dropped even
when selected with a valid URL. -/
theorem parse_csv_no_empty_key (rows : List Row) (m : List (Str × Str))
    (h : parse_csv rows = some m) : lookup m [] = none := by
  have hiff := parse_aux_keys rows [] m h []
  cases hl : lookup m [] with
  | none => rfl
  | some v =>
    exfalso
    rcases hiff.mp ⟨v, hl⟩ with ⟨v2, hv2⟩ | ⟨row, -, hrow⟩
    · simp [lookup] at hv2
    · exact rowKey_ne_empty row hrow

/-- C9 (witness): the theorem applied to a payload whose single selected
row has a name with no alphanumeric characters. -/
theorem parse_csv_no_empty_key_witness :
    lookup ([] : List (Str × Str)) [] = none :=
  parse_csv_no_empty_key
    [⟨some (str "yes"), some (str "!!!"), some (gdocPre ++ id44)⟩] [] (by decide)

/-- C10: every URL accepted by `clean_url` yields a canonical URL from
which `extract_sheet_id` recovers exactly the accepted identifier; the
recovery never returns none on a stored canonical URL. -/
theorem clean_extract_roundtrip (u cu : Str) (h : clean_url u = some cu) :
    ∃ id, cleanAux u = some id ∧ cu = gdocPre ++ id ++ ['/'] ∧
      extract_sheet_id cu = some id := by
  unfold clean_url at h
  cases hca : cleanAux u with
  | none => rw [hca] at h; simp at h
  | some g =>
    rw [hca] at h
    simp only [Option.some.injEq] at h
    obtain ⟨hlen, hall⟩ := cleanAux_props hca
    refine ⟨g, rfl, h.symm, ?_⟩
    rw [← h]
    exact extract_roundtrip g hlen hall

/-- C10 (witness): the theorem applied to a concrete accepted URL. -/
theorem clean_extract_roundtrip_witness :
    ∃ id, cleanAux (gdocPre ++ id44) = some id ∧
      gdocPre ++ id44 ++ ['/'] = gdocPre ++ id ++ ['/'] ∧
      extract_sheet_id (gdocPre ++ id44 ++ ['/']) = some id :=
  clean_extract_roundtrip (gdocPre ++ id44) (gdocPre ++ id44 ++ ['/']) (by decide)
